import Mathlib

/-!
Shallow embedding of the timetable app's core (src/script.js): the
Hong-Kong-time date utilities, the weekly occurrence expansion, the
current/next resolver, the greedy collision layout, and `saveData`'s
six-month pruning filter.

Conventions of the embedding:
* Instants and JavaScript `Date` values are integers counting minutes
  since the Unix epoch (the app never uses sub-minute precision).
* The runtime environment's fixed timezone offset is a parameter
  `o : Int`, in JavaScript `getTimezoneOffset` convention
  (UTC minus local, in minutes; Hong Kong is `-480`).  Daylight-saving
  environments are out of scope (the offset is constant).
* Stored ISO `YYYY-MM-DD` strings (startDate/endDate/exceptions) are
  represented by their civil day number (days since 1970-01-01); the
  string/number correspondence is the external serialization layer.
  `new Date("YYYY-MM-DD")` parses to midnight UTC of that day, i.e. to
  timestamp `day * 1440`.
* Time-of-day strings (`startTime`/`endTime`) are kept as strings and
  parsed like the JS code does (`split(':').map(Number)`); a `NaN`
  result is modelled as `none`.
-/

namespace Timetable

/-! ## Calendar clock: `getHKTDate` and `formatHKTDateString` -/

/-- JS `getHKTDate(d)`: `d.getTime() + getTimezoneOffset()*60000 + 8*3600000`,
as a timestamp shift by `o + 480` minutes. -/
def getHKTDate (o t : Int) : Int := t + o + 480

/-- UTC calendar day number of a timestamp (what `toISOString().slice(0,10)`
names).  `Int.ediv` by a positive divisor is floor division. -/
def utcDay (t : Int) : Int := t / 1440

/-- JS `formatHKTDateString(d)` names the UTC calendar day of `getHKTDate(d)`. -/
def formatHKTDay (o t : Int) : Int := utcDay (getHKTDate o t)

/-- The day number the renderer derives for "today":
`formatHKTDateString(getHKTDate())`, i.e. the shift applied twice. -/
def derivedTodayDay (o t : Int) : Int := formatHKTDay o (getHKTDate o t)

/-- The true Hong Kong calendar day of an instant (fixed UTC+8). -/
def hkDay (t : Int) : Int := utcDay (t + 480)

/-- Weekday names indexed by JS `getDay()` (0 = Sunday). -/
def weekdayNames : List String :=
  ["Sunday", "Monday", "Tuesday", "Wednesday", "Thursday", "Friday", "Saturday"]

/-- The `weekdayName` of a civil day number: 1970-01-01 was a Thursday (4). -/
def dayNameAt (x : Int) : String := weekdayNames.getD ((x + 4) % 7).toNat ""

/-! ## Civil calendar arithmetic (for `saveData`'s `setMonth`) -/

/-- Civil day number of `y-m-d` (proleptic Gregorian, 1-based month),
days since 1970-01-01.  Standard floor-division formula. -/
def daysFromCivil (y m d : Int) : Int :=
  let y' := if m ≤ 2 then y - 1 else y
  let m' := if m ≤ 2 then m + 9 else m - 3
  365 * y' + y' / 4 - y' / 100 + y' / 400
    + (153 * m' + 2) / 5 + d - 1 - 719468

/-- Civil `(y, m, d)` (1-based month) of a day number. -/
def civilFromDays (z : Int) : Int × Int × Int :=
  let z' := z + 719468
  let era := z' / 146097
  let doe := z' - era * 146097
  let yoe := (doe - doe / 1460 + doe / 36524 - doe / 146096) / 365
  let y := yoe + era * 400
  let doy := doe - (365 * yoe + yoe / 4 - yoe / 100)
  let mp := (5 * doy + 2) / 153
  let d := doy - (153 * mp + 2) / 5 + 1
  let m := if mp < 10 then mp + 3 else mp - 9
  (if m ≤ 2 then y + 1 else y, m, d)

/-- JS `date.setMonth(date.getMonth() - 6)` on the local civil fields of a
local timestamp: decrement the (0-based) month by 6 with year borrow, keep
the day-of-month (overflow normalized through the day count) and the
time-of-day. -/
def jsSetMonthMinus6 (localTs : Int) : Int :=
  let days := localTs / 1440
  let tod := localTs % 1440
  let c := civilFromDays days
  let m0 := c.2.1 - 1 - 6
  let y' := c.1 + m0 / 12
  let m' := m0 % 12 + 1
  (daysFromCivil y' m' 1 + (c.2.2 - 1)) * 1440 + tod

/-- The `saveData` cutoff: `getHKTDate()` with its (local-field) month moved
back 6, read back as a timestamp. -/
def sixMonthsAgoTs (o t : Int) : Int :=
  jsSetMonthMinus6 (getHKTDate o t - o) + o

/-- JS `getHKTDate(item.endDate)` where `endDate` is a stored day number. -/
def endDateTs (o endDate : Int) : Int := getHKTDate o (endDate * 1440)

/-! ## Data model -/

/-- A stored event definition (the fields the core consults). -/
structure Item where
  title : String
  location : String
  weekdays : List String
  startDate : Int
  endDate : Int
  startTime : String
  endTime : String
  exceptions : List Int
deriving DecidableEq, Repr

/-- JS `saveData(data)`: keep exactly the items whose parsed `endDate` is on or
after the six-months-ago cutoff; everything else is dropped before
persisting. -/
def saveData (data : List Item) (o t : Int) : List Item :=
  data.filter fun it => decide (sixMonthsAgoTs o t ≤ endDateTs o it.endDate)

/-- JS `split(':')` on the character list of a string (structural model of
`String.split`). -/
def splitColons : List Char → List (List Char)
  | [] => [[]]
  | c :: rest =>
    if c = ':' then [] :: splitColons rest
    else
      match splitColons rest with
      | [] => [[c]]
      | h :: ts => (c :: h) :: ts

/-- JS `Number(piece)` restricted to the decimal naturals the app's `HH:MM`
strings use; `none` models `NaN` for anything non-numeric or empty. -/
def charsToNat (l : List Char) : Option Nat :=
  if l ≠ [] ∧ l.all (fun c => c.isDigit) then
    some (l.foldl (fun n c => n * 10 + (c.toNat - 48)) 0)
  else none

/-- JS `split(':').map(Number)` destructured into hours/minutes;
`none` models the `NaN` that non-numeric pieces (or a missing piece)
produce. -/
def parseHM (s : String) : Option Int :=
  match splitColons s.toList with
  | a :: b :: _ =>
    match charsToNat a, charsToNat b with
    | some h, some m => some ((h : Int) * 60 + m)
    | _, _ => none
  | _ => none

/-- One expanded occurrence, with the fields the weekly render builds
(`{idx, item, day, iso}` plus the parsed minutes added by `occTimes`). -/
structure Occ where
  idx : Nat
  day : Int
  iso : Int
  startM : Option Int
  endM : Option Int
  item : Item
deriving DecidableEq, Repr

/-! ## Weekly expansion (`render`'s occurrence loop) -/

/-- Local civil day number of the Monday `startOfWeek(now)` lands on.
`startOfWeek` applies `getHKTDate` to the already-shifted `now`, reads the
local weekday, and rewinds to Monday at local midnight. -/
def weekMonday (o t : Int) : Int :=
  let w := (t + o + 960) / 1440
  let dow := (w + 4) % 7
  let dd := if dow = 0 then 7 else dow
  w - dd + 1

/-- Timestamp of the `day` object for week cell `d` (0–6):
`getHKTDate(weekStart)` shifted again, then `setDate(+d)`.  Valid for
environment offsets with `(o+480) / 1440 = 0` (all real-world offsets
from UTC+8 west to UTC-16), where the extra shift stays on the same local
day. -/
def cellTs (o m : Int) (d : Nat) : Int := (m + d) * 1440 + 2 * o + 480

/-- JS `formatHKTDateString(day)` for a week cell: the ISO day name used for
the exception lookup. -/
def cellIso (o m : Int) (d : Nat) : Int := formatHKTDay o (cellTs o m d)

/-- JS `getHKTDate(item.startDate)` (or `endDate`) as a timestamp. -/
def storedTs (o s : Int) : Int := s * 1440 + o + 480

/-- Local weekday name of a timestamp (`weekdayName(d)` reads the local
`getDay()`). -/
def tsDayName (o ts : Int) : String := dayNameAt ((ts - o) / 1440)

/-- One iteration of the `for (let d=0; d<7; d++)` body: weekday filter,
date-range filter (`day < start || day > end`), exception filter, then
push `{idx, item, day, iso}` (minutes already parsed). -/
def cellOcc (i : Nat) (it : Item) (o t : Int) (d : Nat) : Option Occ :=
  if it.weekdays.contains (tsDayName o (cellTs o (weekMonday o t) d)) then
    if cellTs o (weekMonday o t) d < storedTs o it.startDate ∨
        cellTs o (weekMonday o t) d > storedTs o it.endDate then none
    else if it.exceptions.contains (cellIso o (weekMonday o t) d) then none
    else some ⟨i, cellTs o (weekMonday o t) d, cellIso o (weekMonday o t) d,
      parseHM it.startTime, parseHM it.endTime, it⟩
  else none

/-- The inner loop of `render`'s occurrence expansion for one item. -/
def expandItem (i : Nat) (it : Item) (o t : Int) : List Occ :=
  (List.range 7).filterMap (cellOcc i it o t)

/-- The date-identifying fields of an occurrence (everything expansion
decides; the time strings are only parsed, never filtered on). -/
def occKey (oc : Occ) : Nat × Int × Int := (oc.idx, oc.day, oc.iso)

/-- JS `data.forEach((item, idx) => ...)`: all items expanded in order. -/
def expandWeek (data : List Item) (o t : Int) : List Occ :=
  data.enum.flatMap fun p => expandItem p.1 p.2 o t

/-! ## Current/next resolver (`render`'s status loop) -/

/-- JS `now.getHours()*60 + now.getMinutes()`: local time-of-day of the
shifted `now`, which is `(t + 480) mod 1440` for every environment
offset. -/
def nowTime (t : Int) : Int := (t + 480) % 1440

/-- JS `formatHKTDateString(o.day) === formatHKTDateString(now)`. -/
def isToday (o t : Int) (x : Occ) : Bool :=
  formatHKTDay o x.day == formatHKTDay o (getHKTDate o t)

/-- JS `NaN`-aware comparisons on parsed minutes: any comparison with
`NaN` is false. -/
def mLe (a : Option Int) (b : Int) : Bool :=
  match a with
  | some v => v ≤ b
  | none => false

/-- Comparison `b < a` with `NaN` on the left yielding false. -/
def mGt (a : Option Int) (b : Int) : Bool :=
  match a with
  | some v => b < v
  | none => false

/-- The `current` test: `isToday && startM <= nowTime && o.endM > nowTime`. -/
def currentPred (o t : Int) (x : Occ) : Bool :=
  isToday o t x && mLe x.startM (nowTime t) && mGt x.endM (nowTime t)

/-- The `nextToday` test: `isToday && o.startM > nowTime`. -/
def nextTodayPred (o t : Int) (x : Occ) : Bool :=
  isToday o t x && mGt x.startM (nowTime t)

/-- The `next` test: `o.day > now || (isToday && o.startM > nowTime)`. -/
def nextPred (o t : Int) (x : Occ) : Bool :=
  (decide (x.day > getHKTDate o t)) || nextTodayPred o t x

/-- The sort comparator `a.day - b.day || a.startM - b.startM` as a strict
"comes before" test; a `NaN` difference is treated as 0 (equal) per the
ECMAScript sort specification. -/
def occLt (a b : Occ) : Bool :=
  a.day < b.day ||
    (a.day == b.day &&
      match a.startM, b.startM with
      | some x, some y => decide (x < y)
      | _, _ => false)

/-- Stable insertion: `x` goes before the first element it strictly
precedes, after earlier-inserted equals. -/
def insBy (lt : α → α → Bool) (x : α) : List α → List α
  | [] => [x]
  | y :: ys => if lt x y then x :: y :: ys else y :: insBy lt x ys

/-- Stable sort (the result of JS's stable `Array.prototype.sort`). -/
def sortBy (lt : α → α → Bool) (l : List α) : List α :=
  l.foldl (fun acc x => insBy lt x acc) []

/-- The canonically ordered `occTimes` list. -/
def canonSort (occs : List Occ) : List Occ := sortBy occLt occs

/-- One step of the `for (const o of occTimes)` loop: `current` is
overwritten on every match, `nextToday` and `next` only when still
unset. -/
def stepResolve (o t : Int) (st : Option Occ × Option Occ × Option Occ)
    (x : Occ) : Option Occ × Option Occ × Option Occ :=
  (if currentPred o t x then some x else st.1,
   if st.2.1.isNone && nextTodayPred o t x then some x else st.2.1,
   if st.2.2.isNone && nextPred o t x then some x else st.2.2)

/-- The whole loop: `(current, nextToday, next)` over the sorted list. -/
def resolve (occs : List Occ) (o t : Int) :
    Option Occ × Option Occ × Option Occ :=
  (canonSort occs).foldl (stepResolve o t) (none, none, none)

/-- The `current` component over a given occurrence list. -/
def resolveCurrent (occs : List Occ) (o t : Int) : Option Occ :=
  (resolve occs o t).1

/-- The `nextToday` component over a given occurrence list. -/
def resolveNextToday (occs : List Occ) (o t : Int) : Option Occ :=
  (resolve occs o t).2.1

/-- The `next` component over a given occurrence list. -/
def resolveNext (occs : List Occ) (o t : Int) : Option Occ :=
  (resolve occs o t).2.2

/-- The full render pipeline for `next`: expansion then resolution. -/
def renderNext (data : List Item) (o t : Int) : Option Occ :=
  resolveNext (expandWeek data o t) o t

/-! ## Collision layout (`render`'s track assignment) -/

/-- Intervals are `(startOffsetInMinutes, endOffsetInMinutes)` pairs as
fed to the track-assignment pass (minutes relative to the grid's first
hour; non-negative for every class the grid can contain). -/
abbrev Iv := Nat × Nat

/-- The sort comparator for `sortedDayClasses`: ascending start, ties by
ascending end, as a strict "comes before" test. -/
def ivLt (a b : Iv) : Bool :=
  a.1 < b.1 || (a.1 == b.1 && decide (a.2 < b.2))

/-- JS `timeSlotMap[min][track]` is modelled by membership of `(min, track)`
in an occupancy list. -/
def trackFree (occ : List (Nat × Nat)) (s e t : Nat) : Bool :=
  (List.range' s (e - s)).all fun m => !(decide ((m, t) ∈ occ))

/-- The `while (!foundTrack) track++` search, with enough fuel to always
find the lowest free track (so the fuel never runs out in any reachable
call). -/
def findTrack (occ : List (Nat × Nat)) (s e : Nat) : Nat → Nat → Nat
  | t, 0 => t
  | t, fuel + 1 => if trackFree occ s e t then t else findTrack occ s e (t + 1) fuel

/-- Mark `[s, e)` occupied on track `t`. -/
def markSpan (occ : List (Nat × Nat)) (s e t : Nat) : List (Nat × Nat) :=
  occ ++ (List.range' s (e - s)).map fun m => (m, t)

/-- First pass of the layout: assign each class (in sorted order) the
lowest track free across its whole span, marking the span occupied.
Returns the `(interval, track)` assignments and the final occupancy
map. -/
def assignTracks : List Iv → List (Nat × Nat) → List (Iv × Nat) × List (Nat × Nat)
  | [], occ => ([], occ)
  | c :: rest, occ =>
    let t := findTrack occ c.1 c.2 0 (occ.length + 1)
    let r := assignTracks rest (markSpan occ c.1 c.2 t)
    ((c, t) :: r.1, r.2)

/-- The track assignments (`classTracks`) for a day's classes. -/
def layoutAssign (cs : List Iv) : List (Iv × Nat) :=
  (assignTracks (sortBy ivLt cs) []).1

/-- The final occupancy map for a day's classes. -/
def layoutOcc (cs : List Iv) : List (Nat × Nat) :=
  (assignTracks (sortBy ivLt cs) []).2

/-- JS `totalTracks`: the number of distinct track indices ever marked in the
occupancy map, with a minimum of 1. -/
def totalTracks (cs : List Iv) : Nat :=
  max 1 ((layoutOcc cs).map Prod.snd).dedup.length

/-- Half-open interval intersection. -/
def overlapB (a b : Iv) : Bool :=
  decide (max a.1 b.1 < min a.2 b.2)

/-! ## Concrete fixtures used by witnesses and counterexamples -/

/-- A Thursday class valid from day 0 (1970-01-01, a Thursday) to day 10. -/
def itemThu : Item := ⟨"Algo", "LT1", ["Thursday"], 0, 10, "09:00", "10:00", []⟩

/-- Same class but valid from day -1, so day 0 is strictly inside the range. -/
def itemThuEarly : Item := ⟨"Algo", "LT1", ["Thursday"], -1, 10, "09:00", "10:00", []⟩

/-- A Thursday class whose time strings do not parse as `HH:MM`. -/
def itemBadTime : Item := ⟨"Sem", "LT2", ["Thursday"], -10, 10, "junk", "xx", []⟩

/-- Item `itemBadTime` with well-formed times and identical date fields. -/
def itemGoodTime : Item := ⟨"Sem", "LT2", ["Thursday"], -10, 10, "09:00", "10:00", []⟩

/-- A Monday class starting on day 4 (1970-01-05, the Monday after the
week containing instant 0). -/
def itemNextWeek : Item := ⟨"Lab", "LT3", ["Monday"], 4, 100, "09:00", "10:00", []⟩

/-- An occurrence 10:00–11:00 on day-cell timestamp 0. -/
def occA : Occ := ⟨0, 0, 0, some 600, some 660, itemThu⟩

/-- An occurrence 10:30–11:30 on the same day, later in canonical order. -/
def occB : Occ := ⟨1, 0, 0, some 630, some 690, itemThu⟩

/-- An item whose endDate (day 20000 ≈ 2024-10-04) is far in the past
relative to day 20372 (2025-10-11). -/
def itemOld : Item := ⟨"Old", "LT4", ["Monday"], 19000, 20000, "09:00", "10:00", []⟩

/-- An item whose endDate (day 20400) is in the future of day 20372. -/
def itemNew : Item := ⟨"New", "LT4", ["Monday"], 20300, 20400, "09:00", "10:00", []⟩

/-! ## Helper lemmas: stable sort -/

theorem insBy_perm (lt : α → α → Bool) (x : α) :
    ∀ l : List α, (insBy lt x l).Perm (x :: l) := by
  intro l
  induction l with
  | nil => exact List.Perm.refl _
  | cons y ys ih =>
    by_cases h : lt x y = true
    · simp [insBy, h]
    · simp only [insBy, h, Bool.false_eq_true, if_false]
      exact (ih.cons y).trans (List.Perm.swap x y ys)

theorem foldl_ins_perm (lt : α → α → Bool) :
    ∀ (l acc : List α), (l.foldl (fun a x => insBy lt x a) acc).Perm (acc ++ l) := by
  intro l
  induction l with
  | nil => intro acc; simp
  | cons x xs ih =>
    intro acc
    have h1 : ((x :: xs).foldl (fun a x => insBy lt x a) acc) =
        xs.foldl (fun a x => insBy lt x a) (insBy lt x acc) := rfl
    rw [h1]
    exact ((ih _).trans ((insBy_perm lt x acc).append_right xs)).trans List.perm_middle.symm

theorem sortBy_perm (lt : α → α → Bool) (l : List α) : (sortBy lt l).Perm l := by
  simpa using foldl_ins_perm lt l []

/-! ## Helper lemmas: fold characterizations of the resolver loop -/

theorem foldl_overwrite (p : α → Bool) (l : List α) :
    ∀ c₀ : Option α,
      l.foldl (fun c x => if p x then some x else c) c₀ =
        ((l.filter p).getLast?).elim c₀ some := by
  induction l using List.reverseRecOn with
  | nil => intro c₀; rfl
  | append_singleton l a ih =>
    intro c₀
    rw [List.foldl_append, List.filter_append]
    by_cases h : p a = true
    · simp [h, List.getLast?_concat]
    · simp only [List.foldl_cons, List.foldl_nil, h, Bool.false_eq_true, if_false,
        List.filter_cons, List.filter_nil, List.append_nil]
      exact ih c₀

theorem foldl_firstmatch (p : α → Bool) (l : List α) :
    ∀ c₀ : Option α,
      l.foldl (fun c x => if c.isNone && p x then some x else c) c₀ =
        c₀.elim (l.find? p) some := by
  induction l with
  | nil => intro c₀; cases c₀ <;> rfl
  | cons x xs ih =>
    intro c₀
    cases c₀ with
    | some v =>
      simp only [List.foldl_cons, Option.isNone_some, Bool.false_and,
        Bool.false_eq_true, if_false]
      exact ih (some v)
    | none =>
      by_cases h : p x = true
      · simp [h, ih, List.find?_cons_of_pos _ h]
      · rw [show none.elim (List.find? p (x :: xs)) some = none.elim (List.find? p xs) some by
          rw [List.find?_cons_of_neg _ h]]
        simp only [List.foldl_cons, Option.isNone_none, Bool.true_and, h,
          Bool.false_eq_true, if_false]
        exact ih none

theorem resolve_fst (o t : Int) (l : List Occ) :
    ∀ st : Option Occ × Option Occ × Option Occ,
      (l.foldl (stepResolve o t) st).1 =
        l.foldl (fun c x => if currentPred o t x then some x else c) st.1 := by
  induction l with
  | nil => intro st; rfl
  | cons x xs ih => intro st; exact ih (stepResolve o t st x)

theorem resolve_snd1 (o t : Int) (l : List Occ) :
    ∀ st : Option Occ × Option Occ × Option Occ,
      (l.foldl (stepResolve o t) st).2.1 =
        l.foldl (fun c x => if c.isNone && nextTodayPred o t x then some x else c) st.2.1 := by
  induction l with
  | nil => intro st; rfl
  | cons x xs ih => intro st; exact ih (stepResolve o t st x)

theorem resolve_snd2 (o t : Int) (l : List Occ) :
    ∀ st : Option Occ × Option Occ × Option Occ,
      (l.foldl (stepResolve o t) st).2.2 =
        l.foldl (fun c x => if c.isNone && nextPred o t x then some x else c) st.2.2 := by
  induction l with
  | nil => intro st; rfl
  | cons x xs ih => intro st; exact ih (stepResolve o t st x)

/-- Resolved `current` is the last occurrence, in canonical order, passing the
current-class test. -/
theorem resolveCurrent_eq (occs : List Occ) (o t : Int) :
    resolveCurrent occs o t = ((canonSort occs).filter (currentPred o t)).getLast? := by
  unfold resolveCurrent resolve
  rw [resolve_fst, foldl_overwrite]
  cases ((canonSort occs).filter (currentPred o t)).getLast? <;> rfl

/-- Resolved `nextToday` is the first occurrence, in canonical order, passing the
next-today test. -/
theorem resolveNextToday_eq (occs : List Occ) (o t : Int) :
    resolveNextToday occs o t = (canonSort occs).find? (nextTodayPred o t) := by
  unfold resolveNextToday resolve
  rw [resolve_snd1, foldl_firstmatch]
  rfl

/-- Resolved `next` is the first occurrence, in canonical order, passing the
next-class test. -/
theorem resolveNext_eq (occs : List Occ) (o t : Int) :
    resolveNext occs o t = (canonSort occs).find? (nextPred o t) := by
  unfold resolveNext resolve
  rw [resolve_snd2, foldl_firstmatch]
  rfl

/-! ## Helper lemmas: the greedy track assignment -/

theorem mem_markSpan (occ : List (Nat × Nat)) (s e t : Nat) (q : Nat × Nat) :
    q ∈ markSpan occ s e t ↔ q ∈ occ ∨ (s ≤ q.1 ∧ q.1 < e ∧ q.2 = t) := by
  unfold markSpan
  rw [List.mem_append, List.mem_map]
  constructor
  · rintro (h | ⟨m, hm, rfl⟩)
    · exact Or.inl h
    · have := List.mem_range'_1.mp hm
      exact Or.inr ⟨this.1, by omega, rfl⟩
  · rintro (h | ⟨h1, h2, h3⟩)
    · exact Or.inl h
    · refine Or.inr ⟨q.1, List.mem_range'_1.mpr ⟨h1, by omega⟩, ?_⟩
      rw [← h3]

theorem trackFree_iff (occ : List (Nat × Nat)) (s e t : Nat) :
    trackFree occ s e t = true ↔ ∀ m, s ≤ m → m < e → (m, t) ∉ occ := by
  unfold trackFree
  rw [List.all_eq_true]
  constructor
  · intro h m h1 h2
    have := h m (List.mem_range'_1.mpr ⟨h1, by omega⟩)
    simpa using this
  · intro h m hm
    have := List.mem_range'_1.mp hm
    simpa using h m this.1 (by omega)

theorem trackFree_eq_false (occ : List (Nat × Nat)) (s e t : Nat)
    (h : trackFree occ s e t = false) : ∃ m, s ≤ m ∧ m < e ∧ (m, t) ∈ occ := by
  by_contra hc
  push_neg at hc
  have : trackFree occ s e t = true := (trackFree_iff occ s e t).mpr fun m h1 h2 => hc m h1 h2
  rw [this] at h
  exact Bool.true_eq_false.mp h

theorem trackFree_of_empty (occ : List (Nat × Nat)) (s e t : Nat) (h : e ≤ s) :
    trackFree occ s e t = true :=
  (trackFree_iff occ s e t).mpr fun m h1 h2 => absurd (lt_of_le_of_lt h1 h2) (by omega)

theorem findTrack_free (occ : List (Nat × Nat)) (s e : Nat) :
    ∀ (fuel t : Nat), (∃ k, k < fuel ∧ trackFree occ s e (t + k) = true) →
      trackFree occ s e (findTrack occ s e t fuel) = true := by
  intro fuel
  induction fuel with
  | zero => intro t ⟨k, hk, _⟩; omega
  | succ f ih =>
    intro t ⟨k, hk, hfree⟩
    by_cases h : trackFree occ s e t = true
    · simp only [findTrack, h, if_true]
    · have hk0 : k ≠ 0 := by rintro rfl; simp only [Nat.add_zero] at hfree; exact h hfree
      simp only [findTrack, h, Bool.false_eq_true, if_false]
      refine ih (t + 1) ⟨k - 1, by omega, ?_⟩
      have harg : t + 1 + (k - 1) = t + k := by omega
      rw [harg]
      exact hfree

theorem findTrack_min (occ : List (Nat × Nat)) (s e : Nat) :
    ∀ (fuel t u : Nat), t ≤ u → u < findTrack occ s e t fuel →
      trackFree occ s e u = false := by
  intro fuel
  induction fuel with
  | zero => intro t u h1 h2; simp only [findTrack] at h2; omega
  | succ f ih =>
    intro t u h1 h2
    by_cases h : trackFree occ s e t = true
    · simp only [findTrack, h, if_true] at h2; omega
    · simp only [findTrack, h, Bool.false_eq_true, if_false] at h2
      rcases Nat.eq_or_lt_of_le h1 with rfl | hlt
      · exact Bool.not_eq_true _ ▸ (Bool.eq_false_iff.mpr h)
      · exact ih (t + 1) u hlt h2

theorem exists_free_track (occ : List (Nat × Nat)) (s e : Nat) :
    ∃ k, k < occ.length + 1 ∧ trackFree occ s e k = true := by
  by_contra hc
  push_neg at hc
  have hsub : (List.range (occ.length + 1)) ⊆ occ.map Prod.snd := by
    intro k hk
    have hk' : k < occ.length + 1 := List.mem_range.mp hk
    have : trackFree occ s e k = false := by
      have := hc k hk'
      exact Bool.eq_false_iff.mpr this
    obtain ⟨m, _, _, hm⟩ := trackFree_eq_false occ s e k this
    exact List.mem_map.mpr ⟨(m, k), hm, rfl⟩
  have := ((List.nodup_range (occ.length + 1)).subperm hsub).length_le
  simp at this

theorem occ_subset_assignTracks :
    ∀ (cs : List Iv) (occ : List (Nat × Nat)), occ ⊆ (assignTracks cs occ).2 := by
  intro cs
  induction cs with
  | nil => intro occ; exact fun q h => h
  | cons c rest ih =>
    intro occ q hq
    exact ih (markSpan occ c.1 c.2 (findTrack occ c.1 c.2 0 (occ.length + 1)))
      (List.mem_append_left _ hq)

/-- Every produced assignment was free over its whole span with respect to
the occupancy that existed before the whole batch started. -/
theorem assignTracks_avoids :
    ∀ (cs : List Iv) (occ : List (Nat × Nat)) (c : Iv) (t' : Nat),
      (c, t') ∈ (assignTracks cs occ).1 →
      ∀ m, c.1 ≤ m → m < c.2 → (m, t') ∉ occ := by
  intro cs
  induction cs with
  | nil => intro occ c t' h; simp [assignTracks] at h
  | cons hd rest ih =>
    intro occ c t' h m h1 h2
    rw [show (assignTracks (hd :: rest) occ).1 =
      (hd, findTrack occ hd.1 hd.2 0 (occ.length + 1)) ::
        (assignTracks rest (markSpan occ hd.1 hd.2 (findTrack occ hd.1 hd.2 0 (occ.length + 1)))).1
      from rfl] at h
    rcases List.mem_cons.mp h with heq | hmem
    · obtain ⟨k, hk, hfree⟩ := exists_free_track occ hd.1 hd.2
      have hfree' : trackFree occ hd.1 hd.2 (findTrack occ hd.1 hd.2 0 (occ.length + 1)) = true :=
        findTrack_free occ hd.1 hd.2 (occ.length + 1) 0 ⟨k, hk, by simpa using hfree⟩
      have hc : c = hd := congrArg Prod.fst heq
      have ht : t' = findTrack occ hd.1 hd.2 0 (occ.length + 1) := congrArg Prod.snd heq
      subst hc
      rw [ht]
      exact (trackFree_iff occ c.1 c.2 _).mp hfree' m h1 h2
    · intro hq
      exact ih _ c t' hmem m h1 h2 (List.mem_append_left _ hq)

/-- Every assignment's span is marked on its track in the final occupancy. -/
theorem assignTracks_marks :
    ∀ (cs : List Iv) (occ : List (Nat × Nat)) (c : Iv) (t' : Nat),
      (c, t') ∈ (assignTracks cs occ).1 →
      ∀ m, c.1 ≤ m → m < c.2 → (m, t') ∈ (assignTracks cs occ).2 := by
  intro cs
  induction cs with
  | nil => intro occ c t' h; simp [assignTracks] at h
  | cons hd rest ih =>
    intro occ c t' h m h1 h2
    rcases List.mem_cons.mp h with heq | hmem
    · have hc : c = hd := congrArg Prod.fst heq
      have ht : t' = findTrack occ hd.1 hd.2 0 (occ.length + 1) := congrArg Prod.snd heq
      subst hc
      rw [ht]
      exact occ_subset_assignTracks rest _
        ((mem_markSpan _ _ _ _ _).mpr (Or.inr ⟨h1, h2, rfl⟩))
    · exact ih _ c t' hmem m h1 h2

/-- Any pair in the final occupancy either was there initially or carries
an assigned track. -/
theorem assignTracks_occ_src :
    ∀ (cs : List Iv) (occ : List (Nat × Nat)) (q : Nat × Nat),
      q ∈ (assignTracks cs occ).2 →
      q ∈ occ ∨ q.2 ∈ (assignTracks cs occ).1.map Prod.snd := by
  intro cs
  induction cs with
  | nil => intro occ q h; exact Or.inl h
  | cons hd rest ih =>
    intro occ q h
    have hshape : (assignTracks (hd :: rest) occ).1.map Prod.snd =
        findTrack occ hd.1 hd.2 0 (occ.length + 1) ::
          (assignTracks rest (markSpan occ hd.1 hd.2
            (findTrack occ hd.1 hd.2 0 (occ.length + 1)))).1.map Prod.snd := rfl
    rcases ih _ q h with h' | h'
    · rcases (mem_markSpan _ _ _ _ _).mp h' with h'' | ⟨_, _, h3⟩
      · exact Or.inl h''
      · refine Or.inr ?_
        rw [hshape]
        exact List.mem_cons.mpr (Or.inl h3)
    · refine Or.inr ?_
      rw [hshape]
      exact List.mem_cons.mpr (Or.inr h')

/-- An assignment with an empty span always gets track 0. -/
theorem assignTracks_empty_span :
    ∀ (cs : List Iv) (occ : List (Nat × Nat)) (c : Iv) (t' : Nat),
      (c, t') ∈ (assignTracks cs occ).1 → c.2 ≤ c.1 → t' = 0 := by
  intro cs
  induction cs with
  | nil => intro occ c t' h; simp [assignTracks] at h
  | cons hd rest ih =>
    intro occ c t' h hspan
    rcases List.mem_cons.mp h with heq | hmem
    · have hc : c = hd := congrArg Prod.fst heq
      have ht : t' = findTrack occ hd.1 hd.2 0 (occ.length + 1) := congrArg Prod.snd heq
      subst hc
      rw [ht]
      have hfree : trackFree occ c.1 c.2 0 = true := trackFree_of_empty occ c.1 c.2 0 hspan
      simp [findTrack, hfree]
    · exact ih _ c t' hmem hspan

/-- Below every assigned track, every lower track is blocked somewhere in
the span (in the final occupancy): the search is greedy-minimal. -/
theorem assignTracks_lower_blocked :
    ∀ (cs : List Iv) (occ : List (Nat × Nat)) (c : Iv) (t' : Nat),
      (c, t') ∈ (assignTracks cs occ).1 →
      ∀ u, u < t' → ∃ m, c.1 ≤ m ∧ m < c.2 ∧ (m, u) ∈ (assignTracks cs occ).2 := by
  intro cs
  induction cs with
  | nil => intro occ c t' h; simp [assignTracks] at h
  | cons hd rest ih =>
    intro occ c t' h u hu
    rcases List.mem_cons.mp h with heq | hmem
    · have hc : c = hd := congrArg Prod.fst heq
      have ht : t' = findTrack occ hd.1 hd.2 0 (occ.length + 1) := congrArg Prod.snd heq
      subst hc
      have hblocked : trackFree occ c.1 c.2 u = false :=
        findTrack_min occ c.1 c.2 (occ.length + 1) 0 u (Nat.zero_le u) (ht ▸ hu)
      obtain ⟨m, h1, h2, h3⟩ := trackFree_eq_false occ c.1 c.2 u hblocked
      exact ⟨m, h1, h2, occ_subset_assignTracks rest _ (List.mem_append_left _ h3)⟩
    · exact ih _ c t' hmem u hu

/-- Assignments of intersecting spans use different tracks. -/
theorem assignTracks_pairwise :
    ∀ (cs : List Iv) (occ : List (Nat × Nat)),
      (assignTracks cs occ).1.Pairwise
        (fun a b => ∀ m, a.1.1 ≤ m → m < a.1.2 → b.1.1 ≤ m → m < b.1.2 → a.2 ≠ b.2) := by
  intro cs
  induction cs with
  | nil => intro occ; simp [assignTracks]
  | cons hd rest ih =>
    intro occ
    rw [show (assignTracks (hd :: rest) occ).1 =
      (hd, findTrack occ hd.1 hd.2 0 (occ.length + 1)) ::
        (assignTracks rest (markSpan occ hd.1 hd.2 (findTrack occ hd.1 hd.2 0 (occ.length + 1)))).1
      from rfl]
    refine List.Pairwise.cons ?_ (ih _)
    rintro ⟨c', t'⟩ hmem m h1 h2 h3 h4 heq
    simp only at h1 h2 h3 h4 heq
    have hmark : (m, findTrack occ hd.1 hd.2 0 (occ.length + 1)) ∈
        markSpan occ hd.1 hd.2 (findTrack occ hd.1 hd.2 0 (occ.length + 1)) :=
      (mem_markSpan _ _ _ _ _).mpr (Or.inr ⟨h1, h2, rfl⟩)
    have havoid := assignTracks_avoids rest _ c' t' hmem m h3 h4
    rw [← heq] at havoid
    exact havoid hmark

theorem le_foldr_max (l : List Nat) (x : Nat) (h : x ∈ l) : x ≤ l.foldr max 0 := by
  induction l with
  | nil => simp at h
  | cons y ys ih =>
    rcases List.mem_cons.mp h with rfl | h'
    · exact Nat.le_max_left _ _
    · exact le_trans (ih h') (Nat.le_max_right _ _)

theorem foldr_max_mem (l : List Nat) : l.foldr max 0 = 0 ∨ l.foldr max 0 ∈ l := by
  induction l with
  | nil => exact Or.inl rfl
  | cons y ys ih =>
    rcases Nat.le_total y (ys.foldr max 0) with hle | hle
    · rw [List.foldr_cons, Nat.max_eq_right hle]
      rcases ih with h | h
      · exact Or.inl h
      · exact Or.inr (List.mem_cons.mpr (Or.inr h))
    · rw [List.foldr_cons, Nat.max_eq_left hle]
      exact Or.inr (List.mem_cons.mpr (Or.inl rfl))

theorem foldr_max_zero (l : List Nat) (h : ∀ x ∈ l, x = 0) : l.foldr max 0 = 0 := by
  induction l with
  | nil => rfl
  | cons y ys ih =>
    rw [List.foldr_cons, h y (List.mem_cons.mpr (Or.inl rfl)),
      ih fun x hx => h x (List.mem_cons.mpr (Or.inr hx))]
    rfl

/-- The computed `totalTracks` equals the greatest assigned track index
plus one (with the empty day counting as maximum 0). -/
theorem totalTracks_eq_max (cs : List Iv) :
    totalTracks cs = ((layoutAssign cs).map Prod.snd).foldr max 0 + 1 := by
  classical
  unfold totalTracks layoutOcc layoutAssign
  set A := (assignTracks (sortBy ivLt cs) []).1 with hA
  set F := (assignTracks (sortBy ivLt cs) []).2 with hF
  set T := (A.map Prod.snd).foldr max 0 with hT
  have hdedup : (F.map Prod.snd).dedup.length = (F.map Prod.snd).toFinset.card :=
    (List.card_toFinset _).symm
  have hsrc : ∀ v ∈ (F.map Prod.snd).toFinset, v ≤ T := by
    intro v hv
    obtain ⟨q, hq, rfl⟩ := List.mem_map.mp (List.mem_toFinset.mp hv)
    rcases assignTracks_occ_src (sortBy ivLt cs) [] q (hF ▸ hq) with h0 | h0
    · simp at h0
    · exact le_foldr_max _ _ h0
  rcases Nat.eq_zero_or_pos T with hzero | hpos
  · rw [hdedup, hzero]
    have hcard : (F.map Prod.snd).toFinset ⊆ {0} := by
      intro v hv
      have := hsrc v hv
      simp only [Finset.mem_singleton]
      omega
    have := Finset.card_le_card hcard
    simp only [Finset.card_singleton] at this
    omega
  · have hTmem : T ∈ A.map Prod.snd := by
      rcases foldr_max_mem (A.map Prod.snd) with h | h
      · omega
      · exact h
    obtain ⟨p, hca, hct⟩ := List.mem_map.mp hTmem
    have hca' : (p.1, T) ∈ A := by
      rw [← hct]
      exact hca
    have hset : (F.map Prod.snd).toFinset = Finset.range (T + 1) := by
      apply Finset.Subset.antisymm
      · intro v hv
        exact Finset.mem_range.mpr (by have := hsrc v hv; omega)
      · intro u hu
        have hu' : u ≤ T := by have := Finset.mem_range.mp hu; omega
        rcases Nat.eq_or_lt_of_le hu' with heq | hlt
        · subst heq
          have hspan : p.1.1 < p.1.2 := by
            by_contra hc
            have := assignTracks_empty_span (sortBy ivLt cs) [] p.1 T hca' (by omega)
            omega
          have := assignTracks_marks (sortBy ivLt cs) [] p.1 T hca' p.1.1 (le_refl _) hspan
          exact List.mem_toFinset.mpr (List.mem_map.mpr ⟨(p.1.1, T), hF ▸ this, rfl⟩)
        · obtain ⟨m, _, _, hm⟩ := assignTracks_lower_blocked (sortBy ivLt cs) [] p.1 T hca' u hlt
          exact List.mem_toFinset.mpr (List.mem_map.mpr ⟨(m, u), hF ▸ hm, rfl⟩)
    rw [hdedup, hset, Finset.card_range]
    omega

theorem overlapB_comm (a b : Iv) : overlapB a b = overlapB b a := by
  unfold overlapB
  rw [Nat.max_comm, Nat.min_comm]

theorem overlapB_of_common (a b : Iv) (m : Nat)
    (h1 : a.1 ≤ m) (h2 : m < a.2) (h3 : b.1 ≤ m) (h4 : m < b.2) :
    overlapB a b = true := by
  unfold overlapB
  rw [decide_eq_true_iff]
  omega

/-- With pairwise non-overlapping inputs (and a compatible pre-existing
occupancy) every class is assigned track 0. -/
theorem assignTracks_all_zero :
    ∀ (cs : List Iv) (occ : List (Nat × Nat)),
      cs.Pairwise (fun a b => overlapB a b = false) →
      (∀ q ∈ occ, ∀ c ∈ cs, ¬(c.1 ≤ q.1 ∧ q.1 < c.2)) →
      ∀ p ∈ (assignTracks cs occ).1, p.2 = 0 := by
  intro cs
  induction cs with
  | nil => intro occ _ _ p hp; simp [assignTracks] at hp
  | cons hd rest ih =>
    intro occ hpw hocc p hp
    have hfree : trackFree occ hd.1 hd.2 0 = true := by
      rw [trackFree_iff]
      intro m hm1 hm2 hmem
      exact hocc (m, 0) hmem hd (List.mem_cons.mpr (Or.inl rfl)) ⟨hm1, hm2⟩
    have htrack : findTrack occ hd.1 hd.2 0 (occ.length + 1) = 0 := by
      simp [findTrack, hfree]
    rcases List.mem_cons.mp hp with heq | hmem
    · rw [heq]
      exact htrack
    · refine ih (markSpan occ hd.1 hd.2 (findTrack occ hd.1 hd.2 0 (occ.length + 1)))
        (List.Pairwise.sublist (List.sublist_cons_self hd rest) hpw) ?_ p hmem
      intro q hq c hc hcontra
      rcases (mem_markSpan _ _ _ _ _).mp hq with hq' | ⟨hq1, hq2, _⟩
      · exact hocc q hq' c (List.mem_cons.mpr (Or.inr hc)) hcontra
      · have hov : overlapB hd c = true :=
          overlapB_of_common hd c q.1 hq1 hq2 hcontra.1 hcontra.2
        have := (List.pairwise_cons.mp hpw).1 c hc
        rw [this] at hov
        exact Bool.false_ne_true hov

/-! ## Helper lemmas: weekly expansion -/

theorem cellTs_inj (o m : Int) (d d' : Nat) (h : cellTs o m d = cellTs o m d') :
    d = d' := by
  unfold cellTs at h
  omega

theorem cellOcc_day (i : Nat) (it : Item) (o t : Int) (d : Nat) (oc : Occ)
    (h : cellOcc i it o t d = some oc) : oc.day = cellTs o (weekMonday o t) d := by
  unfold cellOcc at h
  split at h
  · split at h
    · exact absurd h (by simp)
    · split at h
      · exact absurd h (by simp)
      · cases Option.some.inj h
        rfl
  · exact absurd h (by simp)

theorem mem_expandItem_day (i : Nat) (it : Item) (o t : Int) (oc : Occ)
    (h : oc ∈ expandItem i it o t) :
    ∃ d, d < 7 ∧ oc.day = cellTs o (weekMonday o t) d := by
  obtain ⟨d, hd, hf⟩ := List.mem_filterMap.mp h
  exact ⟨d, List.mem_range.mp hd, cellOcc_day i it o t d oc hf⟩

theorem mem_expandWeek_day (data : List Item) (o t : Int) (oc : Occ)
    (h : oc ∈ expandWeek data o t) :
    ∃ d, d < 7 ∧ oc.day = cellTs o (weekMonday o t) d := by
  obtain ⟨p, _, hp⟩ := List.mem_flatMap.mp h
  exact mem_expandItem_day p.1 p.2 o t oc hp

theorem tsDayName_cell_hk (m : Int) (d : Nat) :
    tsDayName (-480) (cellTs (-480) m d) = dayNameAt (m + d) := by
  unfold tsDayName cellTs
  congr 1
  omega

theorem cellIso_hk (m : Int) (d : Nat) : cellIso (-480) m d = m + d - 1 := by
  unfold cellIso formatHKTDay getHKTDate utcDay cellTs
  omega

theorem cell_range_hk (m s : Int) (d : Nat) :
    (cellTs (-480) m d < storedTs (-480) s ∨ cellTs (-480) m d > storedTs (-480) s) ↔
      (m + d ≤ s ∨ m + d > s) := by
  unfold cellTs storedTs
  omega

/-- The Hong-Kong-environment characterization of one week cell's output:
an occurrence exists iff the weekday matches, the cell day is strictly
after `startDate` and at most `endDate`, and the exception list does not
contain the previous day's number. -/
theorem cellOcc_isSome_hk (i : Nat) (it : Item) (t : Int) (d : Nat) :
    (∃ oc, cellOcc i it (-480) t d = some oc) ↔
      (it.weekdays.contains (dayNameAt (weekMonday (-480) t + d)) = true ∧
        it.startDate < weekMonday (-480) t + d ∧
        weekMonday (-480) t + d ≤ it.endDate ∧
        it.exceptions.contains (weekMonday (-480) t + d - 1) = false) := by
  unfold cellOcc
  rw [tsDayName_cell_hk, cellIso_hk]
  constructor
  · rintro ⟨oc, hoc⟩
    split at hoc
    · split at hoc
      · exact absurd hoc (by simp)
      · split at hoc
        · exact absurd hoc (by simp)
        · rename_i h1 h2 h3
          refine ⟨h1, ?_, ?_, Bool.eq_false_iff.mpr h3⟩
          · revert h2
            unfold cellTs storedTs
            omega
          · revert h2
            unfold cellTs storedTs
            omega
    · rename_i h1
      exact absurd hoc (by simp)
  · rintro ⟨h1, h2, h3, h4⟩
    have hrange : ¬(cellTs (-480) (weekMonday (-480) t) d < storedTs (-480) it.startDate ∨
        cellTs (-480) (weekMonday (-480) t) d > storedTs (-480) it.endDate) := by
      unfold cellTs storedTs
      omega
    have hexc : ¬(it.exceptions.contains (weekMonday (-480) t + d - 1) = true) := by
      rw [h4]
      simp
    rw [if_pos h1, if_neg hrange, if_neg hexc]
    exact ⟨_, rfl⟩

/-! ## Claim theorems -/

/-- C1 (counterexample): in the app's own Hong Kong environment
(offset -480), the definition `itemThu` is valid on day 0 (1970-01-01, a
Thursday, its `startDate`), day 0 is week cell 3 of the rendered week at
instant 0, every condition of the claimed existence invariant holds, and
yet the expansion produces no occurrence at all — the claimed "start date
≤ X" bound is violated by the code. -/
theorem c1_counterexample :
    expandItem 0 itemThu (-480) 0 = [] ∧
    weekMonday (-480) 0 + 3 = 0 ∧
    dayNameAt 0 = "Thursday" ∧
    itemThu.weekdays.contains (dayNameAt 0) = true ∧
    itemThu.startDate ≤ 0 ∧ (0 : Int) ≤ itemThu.endDate ∧
    itemThu.exceptions = [] := by
  refine ⟨by decide, by decide, rfl, by decide, by decide, by decide, rfl⟩

/-- C1 (amended): in a Hong Kong environment the weekly expansion produces
an occurrence for week cell `d` iff the weekday of the cell's civil day
`X = weekMonday + d` is in the definition's weekday set, `X` is STRICTLY
after `startDate` and at most `endDate`, and the exception list does not
contain the PREVIOUS day `X - 1` (the renderer's ISO string for the cell
names the previous civil day there). -/
theorem c1_amended (it : Item) (i : Nat) (t : Int) (d : Nat) (hd : d < 7) :
    (∃ oc ∈ expandItem i it (-480) t,
        oc.day = cellTs (-480) (weekMonday (-480) t) d) ↔
      (it.weekdays.contains (dayNameAt (weekMonday (-480) t + d)) = true ∧
        it.startDate < weekMonday (-480) t + d ∧
        weekMonday (-480) t + d ≤ it.endDate ∧
        it.exceptions.contains (weekMonday (-480) t + d - 1) = false) := by
  rw [← cellOcc_isSome_hk i it t d]
  constructor
  · rintro ⟨oc, hmem, hday⟩
    obtain ⟨d', hd', hf⟩ := List.mem_filterMap.mp hmem
    have hday' : oc.day = cellTs (-480) (weekMonday (-480) t) d' :=
      cellOcc_day _ _ _ _ _ _ hf
    have hdd : d' = d := cellTs_inj _ _ _ _ (hday'.symm.trans hday)
    rw [hdd] at hf
    exact ⟨oc, hf⟩
  · rintro ⟨oc, hf⟩
    exact ⟨oc, List.mem_filterMap.mpr ⟨d, List.mem_range.mpr hd, hf⟩,
      cellOcc_day _ _ _ _ _ _ hf⟩

/-- C1 witness: with `startDate` one day earlier the same Thursday cell
does produce an occurrence, by the amended characterization. -/
theorem c1_amended_witness :
    ∃ oc ∈ expandItem 0 itemThuEarly (-480) 0,
      oc.day = cellTs (-480) (weekMonday (-480) 0) 3 :=
  (c1_amended itemThuEarly 0 0 3 (by norm_num)).mpr (by decide)

/-- C2: any two assignments of the track pass whose half-open minute
intervals intersect carry different track indices. -/
theorem c2_tracks_differ (cs : List Iv) (i j : Nat)
    (hi : i < (layoutAssign cs).length) (hj : j < (layoutAssign cs).length)
    (hij : i ≠ j)
    (hov : overlapB ((layoutAssign cs).get ⟨i, hi⟩).1
      ((layoutAssign cs).get ⟨j, hj⟩).1 = true) :
    ((layoutAssign cs).get ⟨i, hi⟩).2 ≠ ((layoutAssign cs).get ⟨j, hj⟩).2 := by
  unfold layoutAssign at hi hj hov ⊢
  have hpg := List.pairwise_iff_get.mp (assignTracks_pairwise (sortBy ivLt cs) [])
  unfold overlapB at hov
  rw [decide_eq_true_iff] at hov
  set a := ((assignTracks (sortBy ivLt cs) []).1.get ⟨i, hi⟩) with ha
  set b := ((assignTracks (sortBy ivLt cs) []).1.get ⟨j, hj⟩) with hb
  have h1 : a.1.1 ≤ max a.1.1 b.1.1 := Nat.le_max_left _ _
  have h2 : max a.1.1 b.1.1 < a.1.2 := lt_of_lt_of_le hov (Nat.min_le_left _ _)
  have h3 : b.1.1 ≤ max a.1.1 b.1.1 := Nat.le_max_right _ _
  have h4 : max a.1.1 b.1.1 < b.1.2 := lt_of_lt_of_le hov (Nat.min_le_right _ _)
  rcases Nat.lt_or_ge i j with hlt | hge
  · exact hpg ⟨i, hi⟩ ⟨j, hj⟩ hlt (max a.1.1 b.1.1) h1 h2 h3 h4
  · have hlt : j < i := by omega
    intro heq
    exact hpg ⟨j, hj⟩ ⟨i, hi⟩ hlt (max a.1.1 b.1.1) h3 h4 h1 h2 heq.symm

/-- C2 witness: the spec's own example — 10:00–11:00 and 10:30–11:30
overlap and receive different tracks. -/
theorem c2_witness :
    overlapB ((layoutAssign [(600, 660), (630, 690)]).get ⟨0, by decide⟩).1
        ((layoutAssign [(600, 660), (630, 690)]).get ⟨1, by decide⟩).1 = true ∧
      ((layoutAssign [(600, 660), (630, 690)]).get ⟨0, by decide⟩).2 ≠
        ((layoutAssign [(600, 660), (630, 690)]).get ⟨1, by decide⟩).2 :=
  ⟨by decide, c2_tracks_differ [(600, 660), (630, 690)] 0 1 (by decide) (by decide)
    (by decide) (by decide)⟩

/-- C3 (counterexample): two occurrences both contain the current minute
(10:45); the code's `current = o` overwrite keeps the LAST match of the
canonical order, `occB`, not the claimed first one `occA`. -/
theorem c3_counterexample :
    resolveCurrent [occA, occB] 0 165 = some occB ∧
    currentPred 0 165 occA = true ∧
    currentPred 0 165 occB = true ∧
    canonSort [occA, occB] = [occA, occB] ∧
    occA ≠ occB := by
  refine ⟨by decide, by decide, by decide, by decide, by decide⟩

/-- C3 (amended): the resolver returns at most one `current` occurrence —
namely the LAST occurrence in canonical order whose day is today and whose
half-open interval contains the current minute (the loop overwrites
`current` on every match). -/
theorem c3_amended (occs : List Occ) (o t : Int) :
    resolveCurrent occs o t =
      ((canonSort occs).filter (currentPred o t)).getLast? :=
  resolveCurrent_eq occs o t

/-- C5: an occurrence whose `endMinute` equals the current minute is never
selected as `current` (the containment test is half-open). -/
theorem c5_half_open (occs : List Occ) (o t : Int) (c : Occ)
    (h : resolveCurrent occs o t = some c) : c.endM ≠ some (nowTime t) := by
  rw [resolveCurrent_eq] at h
  have hc : c ∈ (canonSort occs).filter (currentPred o t) :=
    List.mem_of_mem_getLast? h
  have hp : currentPred o t c = true := (List.mem_filter.mp hc).2
  unfold currentPred at hp
  rw [Bool.and_eq_true, Bool.and_eq_true] at hp
  have hend := hp.2
  unfold mGt at hend
  cases hE : c.endM with
  | none => rw [hE] at hend; exact absurd hend (by simp)
  | some v =>
    rw [hE] at hend
    rw [decide_eq_true_iff] at hend
    intro hcontra
    have : v = nowTime t := Option.some.inj hcontra
    omega

/-- C5 witness: a concrete 10:00–11:00 class at 10:45 is current, and its
end minute is not the current minute. -/
theorem c5_witness :
    resolveCurrent [occA] 0 165 = some occA ∧
      occA.endM ≠ some (nowTime 165) :=
  ⟨by decide, c5_half_open [occA] 0 165 occA (by decide)⟩

/-- C4 (counterexample): a Monday class starting on day 4 (the Monday
after the rendered week at instant 0) has a strictly-future occurrence per
the claim, but the expansion only covers the current week's 7 cells, so
`next` is `none`. -/
theorem c4_counterexample :
    renderNext [itemNextWeek] 0 0 = none ∧
    dayNameAt 4 = "Monday" ∧
    itemNextWeek.weekdays.contains (dayNameAt 4) = true ∧
    itemNextWeek.startDate ≤ 4 ∧ (4 : Int) ≤ itemNextWeek.endDate ∧
    itemNextWeek.exceptions = [] ∧
    hkDay 0 < 4 := by
  refine ⟨by decide, rfl, by decide, by decide, by decide, rfl, by decide⟩

/-- C4 (amended): `next` is the FIRST occurrence in canonical order
satisfying the code's test (`day > now`, or today with a future start) —
but only among the current week's expanded occurrences: every occurrence
lies on one of the 7 week cells, so nothing more than a week ahead is ever
considered; and `nextToday` is the first canonical occurrence that is
today with a future start, which need not coincide with `next`. -/
theorem c4_amended (data : List Item) (o t : Int) :
    renderNext data o t = (canonSort (expandWeek data o t)).find? (nextPred o t) ∧
    resolveNextToday (expandWeek data o t) o t =
      (canonSort (expandWeek data o t)).find? (nextTodayPred o t) ∧
    ∀ oc ∈ expandWeek data o t, ∃ d, d < 7 ∧ oc.day = cellTs o (weekMonday o t) d :=
  ⟨resolveNext_eq (expandWeek data o t) o t,
   resolveNextToday_eq (expandWeek data o t) o t,
   fun oc h => mem_expandWeek_day data o t oc h⟩

/-- C4 witness: the amended characterization applied at the concrete
counterexample input. -/
theorem c4_amended_witness :
    renderNext [itemNextWeek] 0 0 =
      (canonSort (expandWeek [itemNextWeek] 0 0)).find? (nextPred 0 0) :=
  (c4_amended [itemNextWeek] 0 0).1

/-- C6 (counterexample): a definition whose time strings do not parse is
NOT excluded from the produced occurrences (and no warning channel
exists): expansion still yields its occurrence. -/
theorem c6_counterexample :
    parseHM itemBadTime.startTime = none ∧
    parseHM itemBadTime.endTime = none ∧
    expandWeek [itemBadTime] 0 0 ≠ [] := by
  refine ⟨rfl, rfl, by decide⟩

/-- C6 (amended): expansion does not crash on malformed time strings, but
it also does not exclude the definition: the produced occurrence keys
(index, day, iso) do not depend on the time strings at all — parsing
happens later and unparseable times merely become `NaN` minutes. -/
theorem c6_amended (d₁ d₂ : Item) (i : Nat) (o t : Int)
    (hw : d₁.weekdays = d₂.weekdays) (hs : d₁.startDate = d₂.startDate)
    (he : d₁.endDate = d₂.endDate) (hx : d₁.exceptions = d₂.exceptions) :
    (expandItem i d₁ o t).map occKey = (expandItem i d₂ o t).map occKey := by
  unfold expandItem
  rw [List.map_filterMap, List.map_filterMap]
  have hfun : ∀ d, (cellOcc i d₁ o t d).map occKey = (cellOcc i d₂ o t d).map occKey := by
    intro d
    unfold cellOcc
    rw [hw, hs, he, hx]
    split
    · split
      · rfl
      · split
        · rfl
        · rfl
    · rfl
  simp only [hfun]

/-- C6 witness: the malformed-time definition produces exactly the same
occurrence keys as its well-formed twin, and its occurrence is there. -/
theorem c6_amended_witness :
    (expandItem 0 itemBadTime 0 0).map occKey =
        (expandItem 0 itemGoodTime 0 0).map occKey ∧
      parseHM itemBadTime.startTime = none ∧
      (expandItem 0 itemGoodTime 0 0).length = 1 :=
  ⟨c6_amended itemBadTime itemGoodTime 0 0 0 rfl rfl rfl rfl, rfl, by decide⟩

/-- C7: `totalTracks` — the count of distinct tracks ever marked in the
per-minute map, floored at 1 — equals the greatest assigned track index
plus one (the fold being 0 on an empty day). -/
theorem c7_totalTracks (cs : List Iv) :
    totalTracks cs = ((layoutAssign cs).map Prod.snd).foldr max 0 + 1 :=
  totalTracks_eq_max cs

/-- C8: a day with zero pairwise-overlapping classes puts every class on
track 0 and computes `totalTracks = 1`. -/
theorem c8_no_overlap_single_track (cs : List Iv)
    (hp : cs.Pairwise (fun a b => overlapB a b = false)) :
    (∀ p ∈ layoutAssign cs, p.2 = 0) ∧ totalTracks cs = 1 := by
  have hperm := sortBy_perm ivLt cs
  have hsym : ∀ {x y : Iv}, overlapB x y = false → overlapB y x = false := by
    intro x y h
    rw [overlapB_comm]
    exact h
  have hps : (sortBy ivLt cs).Pairwise (fun a b => overlapB a b = false) :=
    (List.Perm.pairwise_iff hsym hperm).mpr hp
  have hzero : ∀ p ∈ (assignTracks (sortBy ivLt cs) []).1, p.2 = 0 :=
    assignTracks_all_zero (sortBy ivLt cs) [] hps (by intro q hq; simp at hq)
  refine ⟨hzero, ?_⟩
  rw [totalTracks_eq_max cs]
  have hfold : ((layoutAssign cs).map Prod.snd).foldr max 0 = 0 := by
    apply foldr_max_zero
    intro x hx
    obtain ⟨p, hp', rfl⟩ := List.mem_map.mp hx
    exact hzero p hp'
  rw [hfold]

/-- C8 witness: the spec's second example — 10:00–11:00 and 11:00–12:00 do
not overlap and the day computes one single track. -/
theorem c8_witness :
    ([(600, 660), (660, 720)] : List Iv).Pairwise (fun a b => overlapB a b = false) ∧
      totalTracks [(600, 660), (660, 720)] = 1 :=
  ⟨by decide, (c8_no_overlap_single_track [(600, 660), (660, 720)] (by decide)).2⟩

/-- C9 (counterexample): at instant 600 (1970-01-01 10:00 UTC, 18:00 Hong
Kong time) in a UTC environment, the renderer's derived "today" string
names day 1 (1970-01-02) while the Hong Kong date of the instant is day 0
— the double shift in `formatHKTDateString(getHKTDate())` breaks the
claimed consistency. -/
theorem c9_counterexample : derivedTodayDay 0 600 ≠ hkDay 600 := by decide

/-- C9 (amended): the renderer's derived "today" equals the true Hong Kong
calendar date at every instant exactly when the environment offset is
-240 minutes (UTC+4) — where the accidental double shift equals one
correct +8h shift; in every other environment (including Hong Kong itself
and UTC) some instants derive the wrong date. -/
theorem c9_amended (o : Int) :
    (∀ t, derivedTodayDay o t = hkDay t) ↔ o = -240 := by
  constructor
  · intro h
    by_contra hne
    rcases lt_or_gt_of_ne (show 2 * o + 960 ≠ 480 by omega) with hlt | hgt
    · have h1 := h (-480)
      simp only [derivedTodayDay, formatHKTDay, getHKTDate, utcDay, hkDay] at h1
      omega
    · have h1 := h (-(2 * o + 960))
      simp only [derivedTodayDay, formatHKTDay, getHKTDate, utcDay, hkDay] at h1
      omega
  · rintro rfl
    intro t
    simp only [derivedTodayDay, formatHKTDay, getHKTDate, utcDay, hkDay]
    omega

/-- C10: `saveData` persists exactly the input items whose parsed
`endDate` is on or after the cutoff six calendar months before the
current instant (order preserved), and it is not the identity: at
2025-10-11 the cutoff is 2025-04-11 and an item ending 2024-10-04 is
silently dropped. -/
theorem c10_saveData :
    (∀ (data : List Item) (o t : Int) (it : Item),
      it ∈ saveData data o t ↔
        it ∈ data ∧ sixMonthsAgoTs o t ≤ endDateTs o it.endDate) ∧
    (∀ (data : List Item) (o t : Int), (saveData data o t).Sublist data) ∧
    civilFromDays 20372 = (2025, 10, 11) ∧
    sixMonthsAgoTs 0 (20372 * 1440) = daysFromCivil 2025 4 11 * 1440 + 480 ∧
    saveData [itemOld, itemNew] 0 (20372 * 1440) = [itemNew] ∧
    saveData [itemOld, itemNew] 0 (20372 * 1440) ≠ [itemOld, itemNew] := by
  refine ⟨?_, ?_, by decide, by decide, by decide, by decide⟩
  · intro data o t it
    simp [saveData, List.mem_filter]
  · intro data o t
    exact List.filter_sublist data

end Timetable
